import Mathlib

/-!
Verification of the AI-response salvage parser and slide-content normalizer of
`Ai_ppt.py` (functions `repair_truncated_json`, lines 574-636, and the
response post-processing inside `generate_content_with_claude`, lines 726-749).

The embedding works on `List Char` (Python `str` viewed as a character
sequence).  Python exceptions are modelled with `Except Unit`; the bare
`except:` handlers of the source correspond to matching on `.error`.
`json.loads` is modelled by a fuel-based recursive-descent parser over the
JSON fragment that the program actually exchanges: objects, arrays,
strings with the standard backslash escapes (including `\uXXXX` for
non-surrogate code points), integer numerals, `true`/`false`/`null`.
Inputs outside this fragment (surrogate `\u` escapes, fractional or
exponent numerals) are treated as parse failures.
-/

/-- A parsed JSON document, as produced by the model of `json.loads`. -/
inductive JValue where
  | null
  | bool (b : Bool)
  | num (n : Int)
  | str (s : String)
  | arr (elems : List JValue)
  | obj (fields : List (String × JValue))

namespace SlideCore

open JValue

/-- First-match lookup in an association list (Python `dict` access; the
parser keeps keys unique, so first match is the dict entry). -/
def lookupKV : List (String × JValue) → String → Option JValue
  | [], _ => none
  | (k, v) :: rest, key => if key = k then some v else lookupKV rest key

/-- Python `key in dict`. -/
def hasKey (kvs : List (String × JValue)) (key : String) : Bool :=
  (lookupKV kvs key).isSome

/-- Python truthiness of a JSON value (`if x:`). -/
def truthy : JValue → Bool
  | .null => false
  | .bool b => b
  | .num n => n != 0
  | .str s => !s.data.isEmpty
  | .arr xs => !xs.isEmpty
  | .obj kvs => !kvs.isEmpty

/-- Does `pat` occur as a contiguous run inside `cs`?  (Python `sub in s`
for strings, `s.find(sub) != -1`.) -/
def occursIn (pat : List Char) : List Char → Bool
  | [] => pat.isEmpty
  | c :: rest => pat.isPrefixOf (c :: rest) || occursIn pat rest

/-- Python `s == v` where `s` is a `str` and `v` an arbitrary value:
equality across types is `False`. -/
def strEqJ (s : String) (v : JValue) : Bool :=
  match v with
  | .str t => s = t
  | _ => false

/-- Python `key in value`: key membership for dicts, element equality for
lists, substring test for strings, `TypeError` otherwise. -/
def pyIn (key : String) : JValue → Except Unit Bool
  | .obj kvs => .ok (hasKey kvs key)
  | .arr xs => .ok (xs.any (strEqJ key))
  | .str t => .ok (occursIn key.data t.data)
  | _ => .error ()

/-- Python `value[key]` with a string key: dict lookup (`KeyError` when
absent), `TypeError` for every other shape. -/
def pyIndex (v : JValue) (key : String) : Except Unit JValue :=
  match v with
  | .obj kvs =>
    match lookupKV kvs key with
    | some w => .ok w
    | none => .error ()
  | _ => .error ()

/-! ### Python `str.strip` -/

/-- The whitespace set of Python `str.strip` (ASCII part). -/
def isPySpace (c : Char) : Bool :=
  c = ' ' || c = '\t' || c = '\n' || c = '\r' || c = '\x0b' || c = '\x0c'

/-- Remove trailing Python whitespace. -/
def dropTrail (cs : List Char) : List Char :=
  (cs.reverse.dropWhile isPySpace).reverse

/-- Python `s.strip()`. -/
def pyStrip (cs : List Char) : List Char :=
  dropTrail (cs.dropWhile isPySpace)

/-- Python `s[:-n]` for a list already known to be at least `n` long:
drop the last `n` characters. -/
def dropLastN (cs : List Char) (n : Nat) : List Char :=
  (cs.reverse.drop n).reverse

/-! ### Model of `json.loads`

Restricted to the JSON fragment the program exchanges; see the header.
Whitespace between tokens follows the JSON grammar (space, tab, newline,
carriage return). -/

/-- JSON inter-token whitespace. -/
def isJsonWs (c : Char) : Bool :=
  c = ' ' || c = '\t' || c = '\n' || c = '\r'

/-- Skip inter-token whitespace. -/
def skipWs (cs : List Char) : List Char := cs.dropWhile isJsonWs

/-- Value of one hexadecimal digit, as accepted after `\u`. -/
def hexDigit? (c : Char) : Option Nat :=
  if c.isDigit then some (c.toNat - 48)
  else if 'a' ≤ c && c ≤ 'f' then some (c.toNat - 97 + 10)
  else if 'A' ≤ c && c ≤ 'F' then some (c.toNat - 65 + 10)
  else none

/-- The character denoted by a single-character escape sequence. -/
def escChar? (c : Char) : Option Char :=
  if c = '"' then some '"'
  else if c = '\\' then some '\\'
  else if c = '/' then some '/'
  else if c = 'b' then some '\x08'
  else if c = 'f' then some '\x0c'
  else if c = 'n' then some '\n'
  else if c = 'r' then some '\r'
  else if c = 't' then some '\t'
  else none

/-- Body of a string literal after the opening quote, up to the closing
quote, decoding backslash escapes: the eight single-character escapes and
`\uXXXX` with four hex digits, as `json.loads` does.  Surrogate code
points written with `\u` (including surrogate pairs) are outside the
modelled fragment and fail; raw control characters are rejected as in
`json.loads` (strict mode). -/
def strBody : List Char → Option (List Char × List Char)
  | [] => none
  | c :: rest =>
    if c = '"' then some ([], rest)
    else if c = '\\' then
      match rest with
      | 'u' :: h1 :: h2 :: h3 :: h4 :: rest2 =>
        match hexDigit? h1, hexDigit? h2, hexDigit? h3, hexDigit? h4 with
        | some a, some b, some c2, some d =>
          let n := ((a * 16 + b) * 16 + c2) * 16 + d
          if 0xD800 ≤ n ∧ n < 0xE000 then none
          else
            match strBody rest2 with
            | some (bs, r) => some (Char.ofNat n :: bs, r)
            | none => none
        | _, _, _, _ => none
      | e :: rest2 =>
        match escChar? e with
        | some ch =>
          match strBody rest2 with
          | some (bs, r) => some (ch :: bs, r)
          | none => none
        | none => none
      | [] => none
    else if c.toNat < 32 then none
    else
      match strBody rest with
      | some (b, r) => some (c :: b, r)
      | none => none

/-- Leading decimal digits and the remainder. -/
def takeDigits (cs : List Char) : List Char × List Char :=
  (cs.takeWhile Char.isDigit, cs.dropWhile Char.isDigit)

/-- Numeric value of a digit run. -/
def digitsVal (ds : List Char) : Nat :=
  ds.foldl (fun n c => n * 10 + (c.toNat - 48)) 0

/-- Remove the entry with the given key, if any (used to realise the
last-value-wins rule for duplicate object keys). -/
def eraseKey : List (String × JValue) → String → List (String × JValue)
  | [], _ => []
  | (k, v) :: rest, key => if key = k then rest else (k, v) :: eraseKey rest key

/-- Combine an object member with the members parsed after it, with Python
`dict` semantics for a duplicated key: the first occurrence keeps its
position, the last occurrence keeps its value. -/
def combinePair (k : String) (v : JValue) (kvs : List (String × JValue)) :
    List (String × JValue) :=
  match lookupKV kvs k with
  | some w => (k, w) :: eraseKey kvs k
  | none => (k, v) :: kvs

/-- The three parsing modes of the recursive descent: a single value, the
members of an object after its `\x7b`, the elements of an array after its
`[`. -/
inductive PMode where
  | val
  | members
  | elems

/-- Fuel-based recursive descent.  `.members` always returns an `.obj`,
`.elems` always returns an `.arr`. -/
def parseP : Nat → PMode → List Char → Option (JValue × List Char)
  | 0, _, _ => none
  | fuel + 1, .val, cs =>
    match skipWs cs with
    | [] => none
    | '\x7b' :: rest =>
      match skipWs rest with
      | '\x7d' :: r2 => some (.obj [], r2)
      | _ => parseP fuel .members rest
    | '[' :: rest =>
      match skipWs rest with
      | ']' :: r2 => some (.arr [], r2)
      | _ => parseP fuel .elems rest
    | '"' :: rest =>
      match strBody rest with
      | some (b, r) => some (.str (String.mk b), r)
      | none => none
    | 't' :: rest =>
      if ['r', 'u', 'e'].isPrefixOf rest then some (.bool true, rest.drop 3) else none
    | 'f' :: rest =>
      if ['a', 'l', 's', 'e'].isPrefixOf rest then some (.bool false, rest.drop 4) else none
    | 'n' :: rest =>
      if ['u', 'l', 'l'].isPrefixOf rest then some (.null, rest.drop 3) else none
    | '-' :: rest =>
      match takeDigits rest with
      | ([], _) => none
      | (ds, r) => some (.num (-(digitsVal ds : Int)), r)
    | c :: rest =>
      if c.isDigit then
        match takeDigits (c :: rest) with
        | (ds, r) => some (.num (digitsVal ds : Int), r)
      else none
  | fuel + 1, .members, cs =>
    match skipWs cs with
    | '"' :: rest =>
      match strBody rest with
      | none => none
      | some (kb, r1) =>
        match skipWs r1 with
        | ':' :: r2 =>
          match parseP fuel .val r2 with
          | none => none
          | some (v, r3) =>
            match skipWs r3 with
            | ',' :: r4 =>
              match parseP fuel .members r4 with
              | some (.obj kvs, r5) => some (.obj (combinePair (String.mk kb) v kvs), r5)
              | _ => none
            | '\x7d' :: r4 => some (.obj [(String.mk kb, v)], r4)
            | _ => none
        | _ => none
    | _ => none
  | fuel + 1, .elems, cs =>
    match parseP fuel .val cs with
    | none => none
    | some (v, r) =>
      match skipWs r with
      | ',' :: r2 =>
        match parseP fuel .elems r2 with
        | some (.arr xs, r3) => some (.arr (v :: xs), r3)
        | _ => none
      | ']' :: r2 => some (.arr [v], r2)
      | _ => none

/-- Model of `json.loads`: parse one document and require that only
whitespace remains. -/
def jsonLoads (cs : List Char) : Option JValue :=
  match parseP (2 * cs.length + 8) .val cs with
  | some (v, rest) => if (skipWs rest).isEmpty then some v else none
  | none => none

/-! ### The sanitizer (lines 576-584) -/

/-- Lines 576-584: strip, remove a leading ```` ```json ```` or ```` ``` ````
fence opener and a trailing ```` ``` ```` fence closer, strip again. -/
def sanitizeText (cs : List Char) : List Char :=
  let t0 := pyStrip cs
  let t1 := if "```json".data.isPrefixOf t0 then t0.drop 7 else t0
  let t2 := if "```".data.isPrefixOf t1 then t1.drop 3 else t1
  let t3 := if "```".data.isSuffixOf t2 then dropLastN t2 3 else t2
  pyStrip t3

/-! ### Default filling -/

/-- Lines 620-625: fill the defaults of a candidate slide inside the
recovery scan.  `slide_obj` need not be a dict: the membership tests and
item assignments follow Python semantics, and a raised `TypeError` or
`KeyError` is an `.error` (swallowed by the surrounding bare `except:`). -/
def fillRepair : JValue → Except Unit JValue
  | .obj kvs =>
    let k1 := if hasKey kvs "bullets" then kvs else kvs ++ [("bullets", .arr [])]
    if hasKey k1 "image_prompt" then
      let k3 := if hasKey k1 "speaker_notes" then k1 else k1 ++ [("speaker_notes", .str "")]
      .ok (.obj k3)
    else
      match lookupKV k1 "title" with
      | none => .error ()
      | some tv =>
        let k2 := k1 ++ [("image_prompt", tv)]
        let k3 := if hasKey k2 "speaker_notes" then k2 else k2 ++ [("speaker_notes", .str "")]
        .ok (.obj k3)
  | .str s =>
    if occursIn "bullets".data s.data then
      if occursIn "image_prompt".data s.data then
        if occursIn "speaker_notes".data s.data then .ok (.str s) else .error ()
      else .error ()
    else .error ()
  | .arr xs =>
    if xs.any (strEqJ "bullets") then
      if xs.any (strEqJ "image_prompt") then
        if xs.any (strEqJ "speaker_notes") then .ok (.arr xs) else .error ()
      else .error ()
    else .error ()
  | _ => .error ()

/-- Lines 737-743: the default-filling loop of
`generate_content_with_claude`; differs from `fillRepair` in the
`image_prompt` default, `slide.get('title', topic)`. -/
def fillCaller (topic : String) : JValue → Except Unit JValue
  | .obj kvs =>
    let k1 := if hasKey kvs "bullets" then kvs else kvs ++ [("bullets", .arr [])]
    let k2 := if hasKey k1 "image_prompt" then k1
      else k1 ++ [("image_prompt", (lookupKV k1 "title").getD (.str topic))]
    let k3 := if hasKey k2 "speaker_notes" then k2 else k2 ++ [("speaker_notes", .str "")]
    .ok (.obj k3)
  | .str s =>
    if occursIn "bullets".data s.data then
      if occursIn "image_prompt".data s.data then
        if occursIn "speaker_notes".data s.data then .ok (.str s) else .error ()
      else .error ()
    else .error ()
  | .arr xs =>
    if xs.any (strEqJ "bullets") then
      if xs.any (strEqJ "image_prompt") then
        if xs.any (strEqJ "speaker_notes") then .ok (.arr xs) else .error ()
      else .error ()
    else .error ()
  | _ => .error ()

/-- `fillCaller` with the error thrown away: the record a successful pass
of the loop leaves in the list. -/
def fillCallerD (topic : String) (v : JValue) : JValue :=
  match fillCaller topic v with
  | .ok w => w
  | .error _ => v

/-! ### The recovery scan (lines 592-636) -/

/-- Candidate acceptance, lines 616-628: parse the candidate substring in
isolation; keep it when it parses, contains a `title` key and the default
filling raises nothing; any exception is swallowed by the bare `except:`. -/
def tryAccept (cand : List Char) : Option JValue :=
  match jsonLoads cand with
  | none => none
  | some v =>
    match pyIn "title" v with
    | .error _ => none
    | .ok false => none
    | .ok true =>
      match fillRepair v with
      | .error _ => none
      | .ok w => some w

/-- Append a character to the candidate buffer when one is open.  The
buffer holds `text[slide_start : current_pos]` of the source, so it
receives every character scanned while `slide_start != -1`. -/
def pushBuf (buf : Option (List Char)) (c : Char) : Option (List Char) :=
  buf.map (fun b => b ++ [c])

/-- The character loop of lines 605-631.  `brace` is `brace_count` (an
`Int`: the source decrements at any `\x7d`, so it can go negative), `buf`
is `none` for `slide_start == -1` and otherwise carries the characters
since the mark. -/
def scanLoop : List Char → Int → Option (List Char) → List JValue → List JValue
  | [], _, _, acc => acc
  | c :: rest, brace, buf, acc =>
    if c = '\x7b' && brace == 0 then
      scanLoop rest 1 (some [c]) acc
    else if c = '\x7b' then
      scanLoop rest (brace + 1) (pushBuf buf c) acc
    else if c = '\x7d' then
      if brace - 1 == 0 && buf.isSome then
        match buf with
        | some b =>
          match tryAccept (b ++ [c]) with
          | some w => scanLoop rest (brace - 1) none (acc ++ [w])
          | none => scanLoop rest (brace - 1) none acc
        | none => scanLoop rest (brace - 1) none acc
      else
        scanLoop rest (brace - 1) (pushBuf buf c) acc
    else
      scanLoop rest brace (pushBuf buf c) acc

/-- The same loop recording the candidate substrings instead of the
accepted slides (used to state that acceptance is a per-candidate filter). -/
def candLoop : List Char → Int → Option (List Char) → List (List Char)
  | [], _, _ => []
  | c :: rest, brace, buf =>
    if c = '\x7b' && brace == 0 then
      candLoop rest 1 (some [c])
    else if c = '\x7b' then
      candLoop rest (brace + 1) (pushBuf buf c)
    else if c = '\x7d' then
      if brace - 1 == 0 && buf.isSome then
        match buf with
        | some b => (b ++ [c]) :: candLoop rest (brace - 1) none
        | none => candLoop rest (brace - 1) none
      else
        candLoop rest (brace - 1) (pushBuf buf c)
    else
      candLoop rest brace (pushBuf buf c)

/-- The suffix of `cs` beginning at the first occurrence of `pat`
(`s.find(pat)` of line 593, kept as a suffix instead of an index). -/
def dropToSub? (pat : List Char) : List Char → Option (List Char)
  | [] => if pat.isEmpty then some [] else none
  | c :: rest => if pat.isPrefixOf (c :: rest) then some (c :: rest) else dropToSub? pat rest

/-- The suffix of `cs` after the first occurrence of the character `t`
(`s.find(t, i) + 1` of lines 597-601). -/
def dropAfterChar? (t : Char) : List Char → Option (List Char)
  | [] => none
  | c :: rest => if c = t then some rest else dropAfterChar? t rest

/-- Lines 593-601: locate `"slides"`, then the `[` that follows it; the
scan starts right after that bracket.  `none` is the `return None` of
lines 595 and 599. -/
def scanRegionOf (cs : List Char) : Option (List Char) :=
  match dropToSub? "\"slides\"".data cs with
  | none => none
  | some suf => dropAfterChar? '[' suf

/-- `repair_truncated_json` (lines 574-636). -/
def repair_truncated_json (raw : String) : Option JValue :=
  let text := sanitizeText raw.data
  match jsonLoads text with
  | some data => some data
  | none =>
    match scanRegionOf text with
    | none => none
    | some region =>
      let slides := scanLoop region 0 none []
      if slides.isEmpty then none
      else some (.obj [("slides", .arr slides)])

/-! ### The caller's post-processing (lines 726-749) -/

/-- Run `f` over a list, stopping at the first exception, as the `for`
loop of lines 737-743 does. -/
def mapExc (f : JValue → Except Unit JValue) : List JValue → Except Unit (List JValue)
  | [] => .ok []
  | x :: xs =>
    match f x with
    | .error e => .error e
    | .ok y =>
      match mapExc f xs with
      | .error e => .error e
      | .ok ys => .ok (y :: ys)

/-- The `for i, slide in enumerate(slides)` loop together with the final
`return slides`.  Iterating a list rebinds its (mutated-in-place)
elements; iterating a string or a dict walks characters or keys, whose
attempted mutation either raises or changes nothing, so the original value
is returned; iterating anything else is a `TypeError`. -/
def postProcess (topic : String) (slides : JValue) : Except Unit JValue :=
  match slides with
  | .arr xs =>
    match mapExc (fillCaller topic) xs with
    | .ok ys => .ok (.arr ys)
    | .error e => .error e
  | .str s =>
    match mapExc (fillCaller topic) (s.data.map (fun c => .str (String.mk [c]))) with
    | .ok _ => .ok (.str s)
    | .error e => .error e
  | .obj kvs =>
    match mapExc (fillCaller topic) (kvs.map (fun kv => .str kv.1)) with
    | .ok _ => .ok (.obj kvs)
    | .error e => .error e
  | _ => .error ()

/-- The response-salvage part of `generate_content_with_claude`
(lines 726-749), given the provider's response text (the HTTP exchange is
outside the core).  The function-wide `try ... except` catches every
exception of the block and returns `None`, the uniform failure signal. -/
def generate_content_with_claude (topic content : String) : Option JValue :=
  match repair_truncated_json content with
  | none => none
  | some data =>
    if truthy data then
      match pyIn "slides" data with
      | .error _ => none
      | .ok false => none
      | .ok true =>
        match pyIndex data "slides" with
        | .error _ => none
        | .ok slides =>
          if truthy slides then
            match postProcess topic slides with
            | .ok res => some res
            | .error _ => none
          else none
    else none

/-! ### Concrete inputs used to settle the claims -/

/-- A complete, valid document whose single slide record has no `title`. -/
def c1FastInput : String := "\x7b\"slides\":[\x7b\"bullets\":[\"x\"]\x7d]\x7d"

/-- A truncated document whose single recoverable record has an empty
`title` value. -/
def c1SlowInput : String := "\x7b\"slides\": [\x7b\"title\":\"\"\x7d"

/-- A document whose `slides` value is a dict each of whose keys contains
`bullets`, `image_prompt` and `speaker_notes` as substrings. -/
def c3Input : String := "\x7b\"slides\": \x7b\"bulletsimage_promptspeaker_notes\": 0\x7d\x7d"

/-- A document (outer brace unclosed, so the strict parse fails) whose one
slide record is well-formed but has an unescaped `\x7d` inside its title. -/
def c9Input : String := "\x7b\"slides\": [\x7b\"title\":\"a\x7db\",\"bullets\":[]\x7d]"

/-- The well-formed record embedded in `c9Input`. -/
def c9Record : String := "\x7b\"title\":\"a\x7db\",\"bullets\":[]\x7d"

/-- A document with a stray `\x7d` between the collection's `[` and a
complete titled record (outer brace unclosed, so the strict parse fails). -/
def c10Input : String := "\x7b\"slides\": [\x7d\x7b\"title\":\"T\",\"bullets\":[]\x7d]"

/-- The complete titled record embedded in `c10Input`. -/
def c10Record : String := "\x7b\"title\":\"T\",\"bullets\":[]\x7d"

/-- What the recovery path guarantees of an output record: it is an object
carrying a `title` key. -/
def isAcceptedSlide (w : JValue) : Prop :=
  ∃ kvs, w = JValue.obj kvs ∧ hasKey kvs "title" = true

/-- A complete, valid two-record document for the round-trip claim. -/
def c4Input : String :=
  "\x7b\"slides\":[\x7b\"title\":\"A\"\x7d,\x7b\"title\":\"B\",\"bullets\":[\"z\"]\x7d]\x7d"

/-- The records of `c4Input` as parsed values. -/
def c4Recs : List JValue :=
  [.obj [("title", .str "A")], .obj [("title", .str "B"), ("bullets", .arr [.str "z"])]]

/-- A document whose `slides` collection is present but empty. -/
def c5EmptyInput : String := "\x7b\"slides\": []\x7d"

/-- A document spelling its `slides` key with a `\u` escape: the raw text
contains no `"slides"` substring, yet `json.loads` produces the key. -/
def c5EscInput : String := "\x7b\"slide\\u0073\": [\x7b\"title\":\"A\"\x7d]\x7d"

/-- The characters of a JSON key as it must appear, quoted, in the text of
an escape-free document. -/
def quoted (k : String) : List Char := '"' :: (k.data ++ ['"'])

/-- A payload wrapped in a fence opener with the `json` language tag and a
fence closer. -/
def wrapJson (p : String) : String := "```json\n" ++ p ++ "\n```"

/-- A payload wrapped in a bare fence opener and a fence closer. -/
def wrapBare (p : String) : String := "```\n" ++ p ++ "\n```"

/-- A concrete valid payload for the fence-wrapping witness. -/
def c7Payload : String := "\x7b\"slides\":[\x7b\"title\":\"A\"\x7d]\x7d"

/-- Input whose middle candidate record lacks `title`: the scan keeps the
records before and after it. -/
def c8Input : String :=
  "\x7b\"slides\": [\x7b\"title\":\"A\"\x7d,\x7b\"notitle\":1\x7d,\x7b\"title\":\"B\"\x7d]"

/-- The three candidate substrings the scan of `c8Input` visits. -/
def c8Cand1 : List Char := "\x7b\"title\":\"A\"\x7d".data

/-- Second candidate of `c8Input` (no `title`). -/
def c8Cand2 : List Char := "\x7b\"notitle\":1\x7d".data

/-- Third candidate of `c8Input`. -/
def c8Cand3 : List Char := "\x7b\"title\":\"B\"\x7d".data

/-! ### Brace-depth bookkeeping for the truncation-salvage claim -/

/-- One step of the scan's brace-depth counter (lines 608-614). -/
def stepD (d : Int) (c : Char) : Int :=
  if c = '\x7b' then d + 1 else if c = '\x7d' then d - 1 else d

/-- Scanning `cs` from depth `d`, the depth stays at least 1 at every
step: the region never closes a candidate. -/
def staysPos : Int → List Char → Bool
  | _, [] => true
  | d, c :: rest => 1 ≤ stepD d c && staysPos (stepD d c) rest

/-- The depth after scanning `cs` from depth `d`. -/
def endD : Int → List Char → Int
  | d, [] => d
  | d, c :: rest => endD (stepD d c) rest

/-- Scanning `cs` from depth `d ≥ 1`, the depth returns to 0 exactly at
the last character. -/
def closesAtEnd : Int → List Char → Bool
  | _, [] => false
  | d, c :: rest => if stepD d c == 0 then rest.isEmpty else closesAtEnd (stepD d c) rest

/-- A record text whose braces are all structural: it opens with `\x7b`
and its depth first returns to 0 at its final character.  This is the
claim's "no `\x7b` or `\x7d` inside quoted string values" read off at the
level the scan observes. -/
def wellBraced (cs : List Char) : Bool :=
  match cs with
  | c :: rest => c = '\x7b' && closesAtEnd 1 rest
  | [] => false

/-- A truncated trailing fragment: it opens a record whose closing
delimiter never arrives. -/
def fragOk (cs : List Char) : Bool :=
  match cs with
  | c :: rest => c = '\x7b' && staysPos 1 rest
  | [] => false

/-- The claim's hypothesis on a salvageable record: well-braced text that
parses in isolation to an object carrying a `title` key. -/
def goodRecord (r : String) : Bool :=
  wellBraced r.data &&
    match jsonLoads r.data with
    | some (.obj kvs) => hasKey kvs "title"
    | _ => false

/-- The text of a `slides` collection: complete records separated by
commas, then the truncated fragment. -/
def joinTrunc : List String → List Char → List Char
  | [], frag => frag
  | r :: rs, frag => r.data ++ ',' :: joinTrunc rs frag

/-- A document holding complete slide records followed by a record whose
closing delimiter is missing. -/
def mkTruncDoc (recs : List String) (frag : List Char) : String :=
  String.mk ("\x7b\"slides\": [".data ++ joinTrunc recs frag)

/-- What the core emits for one salvaged record text: the record parsed
and filled by the scan (lines 617-626), then passed through the caller's
filling loop (lines 737-743). -/
def salvaged (topic : String) (r : String) : JValue :=
  fillCallerD topic ((tryAccept r.data).getD .null)

/-- Concrete record for the truncation-salvage witness. -/
def c2RecA : String := "\x7b\"title\":\"A\",\"bullets\":[\"x\",\"y\"]\x7d"

/-- Second concrete record for the truncation-salvage witness. -/
def c2RecB : String := "\x7b\"title\":\"B\"\x7d"

/-- Concrete truncated fragment for the truncation-salvage witness. -/
def c2Frag : List Char := "\x7b\"title\":\"C\",\"bullets\":[\"z".data

/-! ## Supporting lemmas -/

theorem lookupKV_append_of_some {kvs l : List (String × JValue)} {k : String} {v : JValue}
    (h : lookupKV kvs k = some v) : lookupKV (kvs ++ l) k = some v := by
  induction kvs with
  | nil => simp [lookupKV] at h
  | cons kv rest ih =>
    obtain ⟨k', v'⟩ := kv
    simp only [lookupKV, List.cons_append] at h ⊢
    split at h
    · rwa [if_pos ‹_›]
    · rw [if_neg ‹_›]; exact ih h

theorem hasKey_append_left {kvs l : List (String × JValue)} {k : String}
    (h : hasKey kvs k = true) : hasKey (kvs ++ l) k = true := by
  unfold hasKey at h ⊢
  cases hl : lookupKV kvs k with
  | none => rw [hl] at h; simp at h
  | some v => rw [lookupKV_append_of_some hl]; rfl

theorem lookupKV_mem {kvs : List (String × JValue)} {k : String} {v : JValue}
    (h : lookupKV kvs k = some v) : (k, v) ∈ kvs := by
  induction kvs with
  | nil => simp [lookupKV] at h
  | cons kv rest ih =>
    obtain ⟨k', v'⟩ := kv
    simp only [lookupKV] at h
    split at h
    · cases h; subst ‹k = k'›; exact List.mem_cons_self ..
    · exact List.mem_cons_of_mem _ (ih h)

theorem lookupKV_ne_nil {kvs : List (String × JValue)} {k : String} {v : JValue}
    (h : lookupKV kvs k = some v) : kvs ≠ [] := by
  intro he; subst he; simp [lookupKV] at h

theorem mapExc_ok_of_all (f : JValue → Except Unit JValue) (xs : List JValue)
    (P : JValue → Prop) (h : ∀ x ∈ xs, ∃ y, f x = .ok y ∧ P y) :
    ∃ ys, mapExc f xs = .ok ys ∧ (∀ y ∈ ys, P y) ∧ ys.length = xs.length := by
  induction xs with
  | nil => exact ⟨[], rfl, by simp, rfl⟩
  | cons x rest ih =>
    obtain ⟨y, hy, hPy⟩ := h x (List.mem_cons_self ..)
    obtain ⟨ys, hys, hPys, hlen⟩ := ih (fun z hz => h z (List.mem_cons_of_mem _ hz))
    refine ⟨y :: ys, ?_, ?_, by simp [hlen]⟩
    · simp only [mapExc, hy, hys]
    · intro z hz
      rcases List.mem_cons.mp hz with hz | hz
      · exact hz ▸ hPy
      · exact hPys z hz

theorem mapExc_ok_length {f : JValue → Except Unit JValue} :
    ∀ {xs ys : List JValue}, mapExc f xs = .ok ys → ys.length = xs.length := by
  intro xs
  induction xs with
  | nil => intro ys h; cases h; rfl
  | cons x rest ih =>
    intro ys h
    simp only [mapExc] at h
    split at h
    · cases h
    · split at h
      · cases h
      · cases h; simp [ih ‹_›]

theorem ifAppend {α : Type} (l : List α) (c : Prop) [Decidable c] (p : List α) :
    ∃ ext, (if c then l else l ++ p) = l ++ ext := by
  by_cases h : c
  · exact ⟨[], by simp [h]⟩
  · exact ⟨p, by simp [h]⟩

theorem fillCaller_obj_ok (topic : String) (kvs : List (String × JValue)) :
    ∃ ext, fillCaller topic (.obj kvs) = .ok (.obj (kvs ++ ext)) := by
  simp only [fillCaller]
  obtain ⟨e1, h1⟩ := ifAppend kvs (hasKey kvs "bullets" = true) [("bullets", .arr [])]
  rw [h1]
  obtain ⟨e2, h2⟩ := ifAppend (kvs ++ e1) (hasKey (kvs ++ e1) "image_prompt" = true)
    [("image_prompt", (lookupKV (kvs ++ e1) "title").getD (.str topic))]
  rw [h2]
  obtain ⟨e3, h3⟩ := ifAppend (kvs ++ e1 ++ e2) (hasKey (kvs ++ e1 ++ e2) "speaker_notes" = true)
    [("speaker_notes", .str "")]
  rw [h3]
  exact ⟨e1 ++ e2 ++ e3, by simp [List.append_assoc]⟩

theorem fillRepair_obj_ok {kvs : List (String × JValue)} {w : JValue}
    (h : fillRepair (.obj kvs) = .ok w) : ∃ ext, w = .obj (kvs ++ ext) := by
  simp only [fillRepair] at h
  obtain ⟨e1, h1⟩ := ifAppend kvs (hasKey kvs "bullets" = true) [("bullets", .arr [])]
  rw [h1] at h
  by_cases h2 : hasKey (kvs ++ e1) "image_prompt" = true
  · rw [if_pos h2] at h
    obtain ⟨e3, h3⟩ := ifAppend (kvs ++ e1) (hasKey (kvs ++ e1) "speaker_notes" = true)
      [("speaker_notes", .str "")]
    rw [h3] at h
    cases h
    exact ⟨e1 ++ e3, by simp [List.append_assoc]⟩
  · rw [if_neg h2] at h
    split at h
    · cases h
    · rename_i tv hl
      obtain ⟨e3, h3⟩ := ifAppend (kvs ++ e1 ++ [("image_prompt", tv)])
        (hasKey (kvs ++ e1 ++ [("image_prompt", tv)]) "speaker_notes" = true)
        [("speaker_notes", .str "")]
      rw [h3] at h
      cases h
      exact ⟨e1 ++ [("image_prompt", tv)] ++ e3, by simp [List.append_assoc]⟩

theorem parseP_members_shape {fuel : Nat} {cs : List Char} {v : JValue} {r : List Char}
    (h : parseP fuel .members cs = some (v, r)) : ∃ kvs, v = JValue.obj kvs := by
  match fuel with
  | 0 => simp [parseP] at h
  | fuel + 1 =>
    simp only [parseP] at h
    repeat' split at h
    all_goals cases h
    all_goals exact ⟨_, rfl⟩

theorem parseP_elems_shape {fuel : Nat} {cs : List Char} {v : JValue} {r : List Char}
    (h : parseP fuel .elems cs = some (v, r)) : ∃ xs, v = JValue.arr xs := by
  match fuel with
  | 0 => simp [parseP] at h
  | fuel + 1 =>
    simp only [parseP] at h
    repeat' split at h
    all_goals cases h
    all_goals exact ⟨_, rfl⟩

theorem parseP_val_brace {fuel : Nat} {cs rest : List Char} {v : JValue} {r : List Char}
    (hsk : skipWs cs = '\x7b' :: rest)
    (h : parseP fuel .val cs = some (v, r)) : ∃ kvs, v = JValue.obj kvs := by
  match fuel with
  | 0 => simp [parseP] at h
  | fuel + 1 =>
    simp only [parseP, hsk] at h
    split at h
    · cases h; exact ⟨_, rfl⟩
    · exact parseP_members_shape h

theorem jsonLoads_brace_obj {t : List Char} {v : JValue}
    (h : jsonLoads ('\x7b' :: t) = some v) : ∃ kvs, v = JValue.obj kvs := by
  have hsk : skipWs ('\x7b' :: t) = '\x7b' :: t := by
    simp [skipWs, List.dropWhile, isJsonWs]
  unfold jsonLoads at h
  split at h
  · rename_i v' rest hp
    split at h
    · cases h; exact parseP_val_brace hsk hp
    · cases h
  · cases h

theorem tryAccept_shape {t : List Char} {w : JValue}
    (h : tryAccept ('\x7b' :: t) = some w) : isAcceptedSlide w := by
  unfold tryAccept at h
  split at h
  · cases h
  · rename_i v hj
    obtain ⟨kvs, rfl⟩ := jsonLoads_brace_obj hj
    simp only [pyIn] at h
    split at h
    · cases h
    · cases h
    · rename_i hb
      have hkey : hasKey kvs "title" = true := by
        cases hk : hasKey kvs "title"
        · rw [hk] at hb; cases hb
        · rfl
      split at h
      · cases h
      · rename_i w' hw'
        cases h
        obtain ⟨ext, rfl⟩ := fillRepair_obj_ok hw'
        exact ⟨_, rfl, hasKey_append_left hkey⟩

theorem pushBuf_brace {buf : Option (List Char)} {c : Char}
    (hb : ∀ b, buf = some b → ∃ t, b = '\x7b' :: t) :
    ∀ b, pushBuf buf c = some b → ∃ t, b = '\x7b' :: t := by
  intro b h
  cases buf with
  | none => cases h
  | some b0 =>
    obtain ⟨t, rfl⟩ := hb b0 rfl
    cases h
    exact ⟨t ++ [c], rfl⟩

theorem scanLoop_accepted :
    ∀ (cs : List Char) (brace : Int) (buf : Option (List Char)) (acc : List JValue),
    (∀ b, buf = some b → ∃ t, b = '\x7b' :: t) →
    (∀ w ∈ acc, isAcceptedSlide w) →
    ∀ w ∈ scanLoop cs brace buf acc, isAcceptedSlide w := by
  intro cs
  induction cs with
  | nil => intro brace buf acc _ ha w hw; exact ha w hw
  | cons c rest ih =>
    intro brace buf acc hb ha w hw
    simp only [scanLoop] at hw
    split at hw
    · exact ih 1 (some [c]) acc (fun b h => by cases h; exact ⟨[], by simp_all⟩) ha w hw
    · split at hw
      · exact ih _ _ _ (pushBuf_brace hb) ha w hw
      · split at hw
        · split at hw
          · split at hw
            · rename_i b hcond
              obtain ⟨t, rfl⟩ := hb b rfl
              split at hw
              · rename_i w' hw'
                refine ih _ none _ (by intro b h; cases h) ?_ w hw
                intro z hz
                rcases List.mem_append.mp hz with hz | hz
                · exact ha z hz
                · rcases List.mem_singleton.mp hz with rfl
                  exact @tryAccept_shape (t ++ [c]) _ (by simpa using hw')
              · exact ih _ none _ (by intro b h; cases h) ha w hw
            · exact ih _ none _ (by intro b h; cases h) ha w hw
          · exact ih _ _ _ (pushBuf_brace hb) ha w hw
        · exact ih _ _ _ (pushBuf_brace hb) ha w hw

theorem repair_slow {raw : String} (h : jsonLoads (sanitizeText raw.data) = none) :
    repair_truncated_json raw = none ∨
    ∃ slides, repair_truncated_json raw = some (.obj [("slides", .arr slides)]) ∧
      slides ≠ [] ∧ ∀ w ∈ slides, isAcceptedSlide w := by
  cases hr : scanRegionOf (sanitizeText raw.data) with
  | none => left; simp [repair_truncated_json, h, hr]
  | some region =>
    cases he : (scanLoop region 0 none []).isEmpty with
    | true => left; simp [repair_truncated_json, h, hr, he]
    | false =>
      right
      refine ⟨scanLoop region 0 none [], by simp [repair_truncated_json, h, hr, he], ?_, ?_⟩
      · intro hnil; rw [hnil] at he; cases he
      · exact scanLoop_accepted region 0 none [] (by intro b hb; cases hb) (by intro w hw; cases hw)

theorem caller_success {topic raw : String} {kvs : List (String × JValue)}
    {recs ys : List JValue}
    (hr : repair_truncated_json raw = some (.obj kvs))
    (hslides : lookupKV kvs "slides" = some (.arr recs))
    (hne : recs ≠ [])
    (hys : mapExc (fillCaller topic) recs = .ok ys) :
    generate_content_with_claude topic raw = some (.arr ys) := by
  have htr : truthy (JValue.obj kvs) = true := by
    have hn := lookupKV_ne_nil hslides
    cases kvs with
    | nil => cases hn rfl
    | cons a l => rfl
  have h2 : pyIn "slides" (JValue.obj kvs) = .ok true := by
    simp [pyIn, hasKey, hslides]
  have h3 : pyIndex (JValue.obj kvs) "slides" = .ok (.arr recs) := by
    simp [pyIndex, hslides]
  have h4 : truthy (JValue.arr recs) = true := by
    cases recs with
    | nil => cases hne rfl
    | cons a l => rfl
  simp [generate_content_with_claude, hr, htr, h2, h3, h4, postProcess, hys]

/-- C1 (amended): on the recovery path — that is, whenever the strict parse
of the sanitized text fails — every record in the core's output is an
object carrying a `title` key (whose value may be empty); the strict-parse
fast path performs no such check. -/
theorem recovery_titles (topic raw : String)
    (h : jsonLoads (sanitizeText raw.data) = none) :
    generate_content_with_claude topic raw = none ∨
    ∃ l, generate_content_with_claude topic raw = some (JValue.arr l) ∧
      ∀ w ∈ l, isAcceptedSlide w := by
  rcases repair_slow h with hr | ⟨slides, hr, hne, hall⟩
  · left; simp [generate_content_with_claude, hr]
  · obtain ⟨ys, hys, hPys, _⟩ := mapExc_ok_of_all (fillCaller topic) slides isAcceptedSlide
      (fun x hx => by
        obtain ⟨kvs, rfl, hk⟩ := hall x hx
        obtain ⟨ext, hfc⟩ := fillCaller_obj_ok topic kvs
        exact ⟨_, hfc, _, rfl, hasKey_append_left hk⟩)
    right
    exact ⟨ys, caller_success hr rfl hne hys, hPys⟩

/-- Witness for the amended C1 at a concrete truncated input. -/
theorem recovery_titles_w :
    generate_content_with_claude "T" c1SlowInput = none ∨
    ∃ l, generate_content_with_claude "T" c1SlowInput = some (JValue.arr l) ∧
      ∀ w ∈ l, isAcceptedSlide w :=
  recovery_titles "T" c1SlowInput (by rfl)

/-- C1 (counterexample): a complete, valid document whose record lacks
`title` passes through the fast path and is returned, and the recovery
path accepts a record whose `title` value is the empty string. -/
theorem titleless_record_in_output :
    generate_content_with_claude "T" c1FastInput =
      some (.arr [.obj [("bullets", .arr [.str "x"]), ("image_prompt", .str "T"),
        ("speaker_notes", .str "")]]) ∧
    hasKey [("bullets", JValue.arr [.str "x"]), ("image_prompt", .str "T"),
      ("speaker_notes", .str "")] "title" = false ∧
    generate_content_with_claude "T" c1SlowInput =
      some (.arr [.obj [("title", .str ""), ("bullets", .arr []),
        ("image_prompt", .str ""), ("speaker_notes", .str "")]]) :=
  ⟨rfl, rfl, rfl⟩

/-- C6: a record supplying only `title` is emitted with `bullets = []`,
`image_prompt` equal to the `title` value and empty `speaker_notes`, by
the recovery-scan filling (lines 620-625) and by the fast-path filling
(lines 738-743) alike. -/
theorem title_only_defaults (topic : String) (t : JValue) :
    fillRepair (.obj [("title", t)]) =
      .ok (.obj [("title", t), ("bullets", .arr []), ("image_prompt", t),
        ("speaker_notes", .str "")]) ∧
    fillCaller topic (.obj [("title", t)]) =
      .ok (.obj [("title", t), ("bullets", .arr []), ("image_prompt", t),
        ("speaker_notes", .str "")]) :=
  ⟨rfl, rfl⟩

/-- C9: the scan counts the `\x7d` inside the quoted title, so the candidate
is cut at the wrong boundary and the well-formed record is lost (here the
whole generation fails). -/
theorem quoted_brace_misparse :
    jsonLoads c9Record.data = some (.obj [("title", .str "a\x7db"), ("bullets", .arr [])]) ∧
    candLoop ((scanRegionOf (sanitizeText c9Input.data)).getD []) 0 none =
      ["\x7b\"title\":\"a\x7d".data] ∧
    generate_content_with_claude "T" c9Input = none :=
  ⟨rfl, rfl, rfl⟩

/-- C10: a stray `\x7d` after the collection's `[` drives `brace_count` to
`-1`; the `\x7b` of the following complete titled record is then seen at
depth `-1`, never marks a candidate, and the record is dropped. -/
theorem stray_brace_negative_counter :
    jsonLoads c10Record.data = some (.obj [("title", .str "T"), ("bullets", .arr [])]) ∧
    candLoop ((scanRegionOf (sanitizeText c10Input.data)).getD []) 0 none = [] ∧
    generate_content_with_claude "T" c10Input = none :=
  ⟨rfl, rfl, rfl⟩

theorem single_char_fillCaller_error (topic : String) (c : Char) :
    fillCaller topic (.str (String.mk [c])) = .error () := by
  have hb : "bullets".data = ['b', 'u', 'l', 'l', 'e', 't', 's'] := rfl
  have hocc : occursIn "bullets".data [c] = false := by
    rw [hb]
    simp [occursIn, List.isPrefixOf]
  simp [fillCaller, hocc]

/-- C3 (amended): the core is total — every internal exception is caught
and becomes the uniform failure signal — and its result is either that
signal, a non-empty slide list, or, for a pathological document whose
`slides` value is a non-empty dict surviving the default-filling loop,
that dict itself returned as-is. -/
theorem core_shape_trichotomy (topic raw : String) :
    generate_content_with_claude topic raw = none ∨
    (∃ l, generate_content_with_claude topic raw = some (.arr l) ∧ l ≠ []) ∨
    (∃ kvs, generate_content_with_claude topic raw = some (.obj kvs) ∧ kvs ≠ []) := by
  cases hr : repair_truncated_json raw with
  | none => left; simp [generate_content_with_claude, hr]
  | some data =>
    cases ht : truthy data with
    | false => left; simp [generate_content_with_claude, hr, ht]
    | true =>
      cases hin : pyIn "slides" data with
      | error e => left; simp [generate_content_with_claude, hr, ht, hin]
      | ok b =>
        cases b with
        | false => left; simp [generate_content_with_claude, hr, ht, hin]
        | true =>
          cases hix : pyIndex data "slides" with
          | error e => left; simp [generate_content_with_claude, hr, ht, hin, hix]
          | ok slides =>
            cases hts : truthy slides with
            | false => left; simp [generate_content_with_claude, hr, ht, hin, hix, hts]
            | true =>
              cases slides with
              | null => simp [truthy] at hts
              | bool bb =>
                left
                simp [generate_content_with_claude, hr, ht, hin, hix, hts, postProcess]
              | num n =>
                left
                simp [generate_content_with_claude, hr, ht, hin, hix, hts, postProcess]
              | str s =>
                obtain ⟨sd⟩ := s
                cases sd with
                | nil => simp [truthy] at hts
                | cons c cs =>
                  left
                  simp [generate_content_with_claude, hr, ht, hin, hix, hts, postProcess,
                    mapExc, single_char_fillCaller_error]
              | arr xs =>
                have hxs : xs ≠ [] := by
                  intro he; subst he; simp [truthy] at hts
                cases hmex : mapExc (fillCaller topic) xs with
                | error e =>
                  left
                  simp [generate_content_with_claude, hr, ht, hin, hix, hts, postProcess, hmex]
                | ok ys =>
                  right; left
                  refine ⟨ys, ?_, ?_⟩
                  · simp [generate_content_with_claude, hr, ht, hin, hix, hts, postProcess, hmex]
                  · intro he
                    have hl := mapExc_ok_length hmex
                    rw [he] at hl
                    cases xs with
                    | nil => exact hxs rfl
                    | cons a l => simp at hl
              | obj kvs =>
                have hkvs : kvs ≠ [] := by
                  intro he; subst he; simp [truthy] at hts
                cases hmex : mapExc (fillCaller topic) (kvs.map (fun kv => .str kv.1)) with
                | error e =>
                  left
                  simp [generate_content_with_claude, hr, ht, hin, hix, hts, postProcess, hmex]
                | ok ys =>
                  right; right
                  refine ⟨kvs, ?_, hkvs⟩
                  simp [generate_content_with_claude, hr, ht, hin, hix, hts, postProcess, hmex]

/-- C3 (counterexample): a document whose `slides` value is a dict each of
whose keys contains the three default-field names as substrings makes the
core return that dict, which is not a slide sequence. -/
theorem dict_slides_returned_asis :
    generate_content_with_claude "T" c3Input =
      some (.obj [("bulletsimage_promptspeaker_notes", .num 0)]) ∧
    ∀ l : List JValue,
      JValue.obj [("bulletsimage_promptspeaker_notes", JValue.num 0)] ≠ JValue.arr l :=
  ⟨rfl, fun _ h => JValue.noConfusion h⟩

theorem mapExc_fillCaller_objs (topic : String) {recs : List JValue}
    (h : ∀ r ∈ recs, ∃ rkvs, r = JValue.obj rkvs) :
    mapExc (fillCaller topic) recs = .ok (recs.map (fillCallerD topic)) := by
  induction recs with
  | nil => rfl
  | cons x rest ih =>
    obtain ⟨rkvs, rfl⟩ := h _ (List.mem_cons_self ..)
    obtain ⟨ext, hfc⟩ := fillCaller_obj_ok topic rkvs
    simp only [mapExc, hfc, ih (fun r hr => h r (List.mem_cons_of_mem _ hr)), List.map_cons]
    simp [fillCallerD, hfc]

/-- C4: an input that strictly parses to a document with a non-empty
`slides` collection of titled record objects is returned whole: every
record, in order, none dropped, none added, each record unchanged except
that the caller's loop fills the missing optional fields (`fillCallerD`,
lines 737-743). -/
theorem strict_round_trip (topic raw : String) (kvs : List (String × JValue))
    (recs : List JValue)
    (hparse : jsonLoads (sanitizeText raw.data) = some (.obj kvs))
    (hslides : lookupKV kvs "slides" = some (.arr recs))
    (hne : recs ≠ [])
    (hrecs : ∀ r ∈ recs, ∃ rkvs, r = JValue.obj rkvs ∧ hasKey rkvs "title" = true) :
    generate_content_with_claude topic raw = some (.arr (recs.map (fillCallerD topic))) := by
  have hr : repair_truncated_json raw = some (.obj kvs) := by
    simp [repair_truncated_json, hparse]
  exact caller_success hr hslides hne
    (mapExc_fillCaller_objs topic (fun r hr' => ⟨(hrecs r hr').choose, (hrecs r hr').choose_spec.1⟩))

/-- Witness for C4 at a concrete two-record document. -/
theorem strict_round_trip_w :
    generate_content_with_claude "T" c4Input = some (.arr (c4Recs.map (fillCallerD "T"))) := by
  refine strict_round_trip "T" c4Input [("slides", .arr c4Recs)] c4Recs (by rfl) (by rfl)
    (by simp [c4Recs]) ?_
  intro r hr
  rcases List.mem_cons.mp hr with rfl | hr
  · exact ⟨_, rfl, rfl⟩
  · rcases List.mem_singleton.mp hr with rfl
    exact ⟨_, rfl, rfl⟩

theorem occursIn_iff {pat cs : List Char} : occursIn pat cs = true ↔ pat <:+: cs := by
  induction cs with
  | nil => simp [occursIn, List.isEmpty_iff]
  | cons c rest ih =>
    simp [occursIn, List.infix_cons_iff, ih, List.isPrefixOf_iff_prefix]

theorem occursIn_mono {pat cs cs' : List Char} (hsub : cs <:+: cs')
    (h : occursIn pat cs = true) : occursIn pat cs' = true :=
  occursIn_iff.mpr ((occursIn_iff.mp h).trans hsub)

theorem dropTrail_isPrefix (cs : List Char) : dropTrail cs <+: cs := by
  have h : cs.reverse.dropWhile isPySpace <:+ cs.reverse := List.dropWhile_suffix _
  have h2 := List.reverse_prefix.mpr h
  rwa [List.reverse_reverse] at h2

theorem dropLastN_isPrefix (cs : List Char) (n : Nat) : dropLastN cs n <+: cs := by
  have h : cs.reverse.drop n <:+ cs.reverse := List.drop_suffix _ _
  have h2 := List.reverse_prefix.mpr h
  rwa [List.reverse_reverse] at h2

theorem pyStrip_isInfix (cs : List Char) : pyStrip cs <:+: cs :=
  (dropTrail_isPrefix _).isInfix.trans (List.dropWhile_suffix _).isInfix

theorem ite_then_isInfix {c : Prop} [Decidable c] {a b : List Char} (h1 : a <:+: b) :
    (if c then a else b) <:+: b := by
  split
  · exact h1
  · exact List.infix_rfl

theorem sanitizeText_isInfix (cs : List Char) : sanitizeText cs <:+: cs := by
  simp only [sanitizeText]
  refine (pyStrip_isInfix _).trans ?_
  refine (ite_then_isInfix ((dropLastN_isPrefix _ _).isInfix)).trans ?_
  refine (ite_then_isInfix ((List.drop_suffix _ _).isInfix)).trans ?_
  refine (ite_then_isInfix ((List.drop_suffix _ _).isInfix)).trans ?_
  exact pyStrip_isInfix cs

theorem dropToSub_none {pat cs : List Char} (h : occursIn pat cs = false) :
    dropToSub? pat cs = none := by
  induction cs with
  | nil =>
    simp only [occursIn] at h
    simp [dropToSub?, h]
  | cons c rest ih =>
    simp only [occursIn, Bool.or_eq_false_iff] at h
    simp [dropToSub?, h.1, ih h.2]

theorem tail_of_skipWs {cs rest : List Char} {c : Char} (h : skipWs cs = c :: rest) :
    rest <:+ cs :=
  (h ▸ List.suffix_cons c rest).trans (List.dropWhile_suffix _)

theorem notMem_of_suffix {a : Char} {l l' : List Char} (hs : l <:+ l') (h : a ∉ l') :
    a ∉ l :=
  fun hm => h (hs.sublist.subset hm)

theorem notMem_of_infix {a : Char} {l l' : List Char} (hs : l <:+: l') (h : a ∉ l') :
    a ∉ l :=
  fun hm => h (hs.sublist.subset hm)

theorem not_mem_of_occursIn_single {c : Char} {l : List Char}
    (h : occursIn [c] l = false) : c ∉ l := by
  intro hm
  obtain ⟨s, t, rfl⟩ := List.append_of_mem hm
  have ht : occursIn [c] (s ++ c :: t) = true := occursIn_iff.mpr ⟨s, t, by simp⟩
  rw [ht] at h
  cases h

theorem strBody_noBS_split : ∀ {cs b r : List Char}, '\\' ∉ cs →
    strBody cs = some (b, r) → cs = b ++ '"' :: r := by
  intro cs
  induction cs with
  | nil => intro b r _ h; cases h
  | cons c rest ih =>
    intro b r hnb h
    have hbs : c ≠ '\\' := fun hc => hnb (hc ▸ List.mem_cons_self ..)
    have hnb2 : '\\' ∉ rest := fun hm => hnb (List.mem_cons_of_mem _ hm)
    rw [strBody.eq_def] at h
    by_cases hq : c = '"'
    · subst hq
      simp at h
      obtain ⟨rfl, rfl⟩ := h
      rfl
    · simp only [hq, hbs, if_false, ite_false] at h
      split at h
      · cases h
      · split at h
        · rename_i bs r2 hb
          cases h
          simpa using congrArg (c :: ·) (ih hnb2 hb)
        · cases h

theorem strBody_suffix : ∀ {cs b r : List Char},
    strBody cs = some (b, r) → r <:+ cs := by
  intro cs
  induction cs using strBody.induct <;> intro b r h <;>
    rw [strBody.eq_def] at h <;> try simp_all
  all_goals obtain ⟨rfl, rfl⟩ := h
  all_goals rename_i ih
  all_goals simp [List.suffix_cons_iff, ih]

theorem parseP_suffix : ∀ (fuel : Nat) (mode : PMode) {cs r : List Char} {v : JValue},
    parseP fuel mode cs = some (v, r) → r <:+ cs := by
  intro fuel
  induction fuel with
  | zero => intro mode cs r v h; simp [parseP] at h
  | succ n ih =>
    intro mode cs r v h
    cases mode with
    | val =>
      simp only [parseP] at h
      split at h
      · cases h
      · rename_i rest heq
        split at h
        · rename_i r2 heq2
          cases h
          exact (tail_of_skipWs heq2).trans (tail_of_skipWs heq)
        · exact (ih .members h).trans (tail_of_skipWs heq)
      · rename_i rest heq
        split at h
        · rename_i r2 heq2
          cases h
          exact (tail_of_skipWs heq2).trans (tail_of_skipWs heq)
        · exact (ih .elems h).trans (tail_of_skipWs heq)
      · rename_i rest heq
        split at h
        · rename_i b r' hb
          cases h
          exact (strBody_suffix hb).trans (tail_of_skipWs heq)
        · cases h
      · rename_i rest heq
        split at h
        · cases h
          exact (List.drop_suffix _ _).trans (tail_of_skipWs heq)
        · cases h
      · rename_i rest heq
        split at h
        · cases h
          exact (List.drop_suffix _ _).trans (tail_of_skipWs heq)
        · cases h
      · rename_i rest heq
        split at h
        · cases h
          exact (List.drop_suffix _ _).trans (tail_of_skipWs heq)
        · cases h
      · rename_i rest heq
        split at h
        · cases h
        · rename_i ds r' hcon hd
          cases h
          have hr' : r = rest.dropWhile Char.isDigit := by
            have h2 := congrArg Prod.snd hd
            simpa [takeDigits] using h2.symm
          rw [hr']
          exact (List.dropWhile_suffix _).trans (tail_of_skipWs heq)
      · rename_i c rest hc1 hc2 hc3 hc4 hc5 hc6 hc7 heq
        split at h
        · have htd : takeDigits (c :: rest) =
              ((c :: rest).takeWhile Char.isDigit, (c :: rest).dropWhile Char.isDigit) := rfl
          rw [htd] at h
          cases h
          exact (List.dropWhile_suffix _).trans (heq ▸ List.dropWhile_suffix isJsonWs)
        · cases h
    | members =>
      simp only [parseP] at h
      split at h
      · rename_i rest heq
        split at h
        · cases h
        · rename_i kb r1 hb
          split at h
          · rename_i r2 heq2
            split at h
            · cases h
            · rename_i v' r3 hv
              split at h
              · rename_i r4 heq3
                split at h
                · rename_i kvs' r5 hm
                  cases h
                  exact (ih .members hm).trans ((tail_of_skipWs heq3).trans
                    ((ih .val hv).trans ((tail_of_skipWs heq2).trans
                      ((strBody_suffix hb).trans (tail_of_skipWs heq)))))
                · cases h
              · rename_i r4 heq3
                cases h
                exact (tail_of_skipWs heq3).trans ((ih .val hv).trans
                  ((tail_of_skipWs heq2).trans
                    ((strBody_suffix hb).trans (tail_of_skipWs heq))))
              · cases h
          · cases h
      · cases h
    | elems =>
      simp only [parseP] at h
      split at h
      · cases h
      · rename_i v' r' hv
        split at h
        · rename_i r2 heq2
          split at h
          · rename_i xs r3 hm
            cases h
            exact (ih .elems hm).trans ((tail_of_skipWs heq2).trans (ih .val hv))
          · cases h
        · rename_i r2 heq2
          cases h
          exact (tail_of_skipWs heq2).trans (ih .val hv)
        · cases h

theorem eraseKey_subset {kvs : List (String × JValue)} {key : String} {kv : String × JValue}
    (h : kv ∈ eraseKey kvs key) : kv ∈ kvs := by
  induction kvs with
  | nil => cases h
  | cons p rest ih =>
    obtain ⟨k', v'⟩ := p
    simp only [eraseKey] at h
    split at h
    · exact List.mem_cons_of_mem _ h
    · rcases List.mem_cons.mp h with rfl | h
      · exact List.mem_cons_self ..
      · exact List.mem_cons_of_mem _ (ih h)

theorem combinePair_mem {k : String} {v : JValue} {kvs : List (String × JValue)}
    {kv : String × JValue} (h : kv ∈ combinePair k v kvs) : kv.1 = k ∨ kv ∈ kvs := by
  unfold combinePair at h
  split at h
  · rcases List.mem_cons.mp h with rfl | h
    · left; rfl
    · right; exact eraseKey_subset h
  · rcases List.mem_cons.mp h with rfl | h
    · left; rfl
    · right; exact h

theorem quoted_key_infix {cs rest kb r1 : List Char} (hnb : '\\' ∉ cs)
    (heq : skipWs cs = '"' :: rest) (hb : strBody rest = some (kb, r1)) :
    quoted (String.mk kb) <:+: cs := by
  have hnb2 : '\\' ∉ rest := notMem_of_suffix (tail_of_skipWs heq) hnb
  have hq : quoted (String.mk kb) = '"' :: (kb ++ ['"']) := rfl
  have hpre : '"' :: (kb ++ ['"']) <+: '"' :: rest := by
    refine List.cons_prefix_cons.mpr ⟨rfl, ?_⟩
    rw [strBody_noBS_split hnb2 hb]
    exact (List.prefix_append_right_inj kb).mpr ⟨r1, rfl⟩
  rw [hq]
  exact (hpre.isInfix).trans
    ((show ('"' :: rest) <:+ cs from heq ▸ List.dropWhile_suffix isJsonWs).isInfix)

theorem parseP_members_keys : ∀ (fuel : Nat) {cs r : List Char} {kvs : List (String × JValue)},
    '\\' ∉ cs → parseP fuel .members cs = some (.obj kvs, r) →
    ∀ kv ∈ kvs, quoted kv.1 <:+: cs := by
  intro fuel
  induction fuel with
  | zero => intro cs r kvs _ h; simp [parseP] at h
  | succ n ih =>
    intro cs r kvs hnb h kv hkv
    simp only [parseP] at h
    split at h
    · rename_i rest heq
      split at h
      · cases h
      · rename_i kb r1 hb
        split at h
        · rename_i r2 heq2
          split at h
          · cases h
          · rename_i v' r3 hv
            split at h
            · rename_i r4 heq3
              split at h
              · rename_i kvs' r5 hm
                cases h
                rcases combinePair_mem hkv with hk1 | hk2
                · rw [hk1]
                  exact quoted_key_infix hnb heq hb
                · have hsuf : r4 <:+ cs := (tail_of_skipWs heq3).trans
                    ((parseP_suffix n .val hv).trans ((tail_of_skipWs heq2).trans
                      ((strBody_suffix hb).trans (tail_of_skipWs heq))))
                  exact (ih (notMem_of_suffix hsuf hnb) hm kv hk2).trans hsuf.isInfix
              · cases h
            · rename_i r4 heq3
              cases h
              rcases List.mem_singleton.mp hkv with rfl
              exact quoted_key_infix hnb heq hb
            · cases h
        · cases h
    · cases h

theorem parseP_val_keys : ∀ {fuel : Nat} {cs r : List Char} {kvs : List (String × JValue)},
    '\\' ∉ cs → parseP fuel .val cs = some (.obj kvs, r) →
    ∀ kv ∈ kvs, quoted kv.1 <:+: cs := by
  intro fuel cs r kvs hnb h
  match fuel with
  | 0 => simp [parseP] at h
  | n + 1 =>
    simp only [parseP] at h
    split at h
    · cases h
    · rename_i rest heq
      split at h
      · rename_i r2 heq2
        cases h
        intro kv hkv
        cases hkv
      · intro kv hkv
        have hnb2 : '\\' ∉ rest := notMem_of_suffix (tail_of_skipWs heq) hnb
        exact (parseP_members_keys n hnb2 h kv hkv).trans ((tail_of_skipWs heq).isInfix)
    · rename_i rest heq
      split at h
      · cases h
      · obtain ⟨xs, hx⟩ := parseP_elems_shape h
        cases hx
    · rename_i rest heq
      split at h
      · rename_i b r' hb
        cases h
      · cases h
    · rename_i rest heq
      split at h
      · cases h
      · cases h
    · rename_i rest heq
      split at h
      · cases h
      · cases h
    · rename_i rest heq
      split at h
      · cases h
      · cases h
    · rename_i rest heq
      split at h
      · cases h
      · rename_i ds r' hcon hd
        cases h
    · rename_i c rest hc1 hc2 hc3 hc4 hc5 hc6 hc7 heq
      split at h
      · have htd : takeDigits (c :: rest) =
            ((c :: rest).takeWhile Char.isDigit, (c :: rest).dropWhile Char.isDigit) := rfl
        rw [htd] at h
        cases h
      · cases h

theorem jsonLoads_obj_keys {cs : List Char} {kvs : List (String × JValue)}
    (hnb : '\\' ∉ cs) (h : jsonLoads cs = some (.obj kvs)) :
    ∀ kv ∈ kvs, quoted kv.1 <:+: cs := by
  unfold jsonLoads at h
  split at h
  · rename_i v' rest hp
    split at h
    · cases h
      exact parseP_val_keys hnb hp
    · cases h
  · cases h

theorem no_slides_key_fails (topic raw : String)
    (h : occursIn "\"slides\"".data raw.data = false)
    (hnb : occursIn ['\\'] raw.data = false) :
    generate_content_with_claude topic raw = none := by
  have hnbs : '\\' ∉ sanitizeText raw.data :=
    notMem_of_infix (sanitizeText_isInfix raw.data) (not_mem_of_occursIn_single hnb)
  have hsan : occursIn "\"slides\"".data (sanitizeText raw.data) = false := by
    cases hq : occursIn "\"slides\"".data (sanitizeText raw.data) with
    | false => rfl
    | true => rw [occursIn_mono (sanitizeText_isInfix raw.data) hq] at h; cases h
  cases hl : jsonLoads (sanitizeText raw.data) with
  | none =>
    have hreg : scanRegionOf (sanitizeText raw.data) = none := by
      simp [scanRegionOf, dropToSub_none hsan]
    simp [generate_content_with_claude, repair_truncated_json, hl, hreg]
  | some data =>
    have hr : repair_truncated_json raw = some data := by
      simp [repair_truncated_json, hl]
    cases data with
    | obj kvs =>
      have hk : hasKey kvs "slides" = false := by
        cases hkk : hasKey kvs "slides" with
        | false => rfl
        | true =>
          unfold hasKey at hkk
          cases hlk : lookupKV kvs "slides" with
          | none => rw [hlk] at hkk; cases hkk
          | some w =>
            have hocc := jsonLoads_obj_keys hnbs hl ("slides", w) (lookupKV_mem hlk)
            have ht : occursIn "\"slides\"".data (sanitizeText raw.data) = true := by
              have hqq : "\"slides\"".data = quoted "slides" := rfl
              rw [hqq]
              exact occursIn_iff.mpr hocc
            rw [ht] at hsan; cases hsan
      simp [generate_content_with_claude, hr, pyIn, hk]
    | str s =>
      cases ho : occursIn "slides".data s.data <;>
        simp [generate_content_with_claude, hr, pyIn, pyIndex, ho]
    | arr xs =>
      cases ha : xs.any (strEqJ "slides") <;>
        simp [generate_content_with_claude, hr, pyIn, pyIndex, ha]
    | num n => simp [generate_content_with_claude, hr, pyIn]
    | bool b => simp [generate_content_with_claude, hr, pyIn]
    | null => simp [generate_content_with_claude, hr, truthy]

theorem empty_slides_fails (topic raw : String) (kvs : List (String × JValue))
    (hparse : jsonLoads (sanitizeText raw.data) = some (.obj kvs))
    (hslides : lookupKV kvs "slides" = some (.arr [])) :
    generate_content_with_claude topic raw = none := by
  have hr : repair_truncated_json raw = some (.obj kvs) := by
    simp [repair_truncated_json, hparse]
  have htr : truthy (JValue.obj kvs) = true := by
    have hn := lookupKV_ne_nil hslides
    cases kvs with
    | nil => cases hn rfl
    | cons a l => rfl
  have h2 : pyIn "slides" (JValue.obj kvs) = .ok true := by
    simp [pyIn, hasKey, hslides]
  have h3 : pyIndex (JValue.obj kvs) "slides" = .ok (.arr []) := by
    simp [pyIndex, hslides]
  simp [generate_content_with_claude, hr, htr, h2, h3, truthy]

/-- C5 (amended): an input whose text carries no quoted `slides` key and no
backslash yields the failure signal (never an empty success) — a `\u`
escape can spell the key without the text containing it, see
`escaped_slides_key_succeeds` — and a document whose `slides` collection is
present but empty likewise yields the failure signal. -/
theorem absent_or_empty_slides (topic raw : String) :
    (occursIn "\"slides\"".data raw.data = false →
      occursIn ['\\'] raw.data = false →
      generate_content_with_claude topic raw = none) ∧
    (∀ kvs, jsonLoads (sanitizeText raw.data) = some (.obj kvs) →
      lookupKV kvs "slides" = some (.arr []) →
      generate_content_with_claude topic raw = none) :=
  ⟨no_slides_key_fails topic raw, fun kvs h1 h2 => empty_slides_fails topic raw kvs h1 h2⟩

/-- Witness for C5: spec scenarios 3 and 4. -/
theorem absent_or_empty_slides_w :
    generate_content_with_claude "T" "no slides here at all" = none ∧
    generate_content_with_claude "T" c5EmptyInput = none :=
  ⟨(absent_or_empty_slides "T" "no slides here at all").1 (by rfl) (by rfl),
   (absent_or_empty_slides "T" c5EmptyInput).2 [("slides", .arr [])] (by rfl) (by rfl)⟩

/-- Counterexample to C5 as stated: a document whose text spells the key
with a unicode escape, `"slide\u0073"`, contains no `"slides"` substring,
yet `json.loads` decodes the escape to `s`, the parsed dict holds a
`slides` key, and the core returns its record — a success, not the failure
signal. -/
theorem escaped_slides_key_succeeds :
    occursIn "\"slides\"".data c5EscInput.data = false ∧
    generate_content_with_claude "T" c5EscInput =
      some (.arr [.obj [("title", .str "A"), ("bullets", .arr []),
        ("image_prompt", .str "A"), ("speaker_notes", .str "")]]) :=
  ⟨rfl, rfl⟩

theorem dropTrail_append_ws {l : List Char} {c : Char} (hc : isPySpace c = true) :
    dropTrail (l ++ [c]) = dropTrail l := by
  simp [dropTrail, List.reverse_append, List.dropWhile_cons, hc]

theorem pyStrip_cons_ws {l : List Char} {c : Char} (hc : isPySpace c = true) :
    pyStrip (c :: l) = pyStrip l := by
  simp [pyStrip, List.dropWhile_cons, hc]

theorem pyStrip_append_ws {l : List Char} {c : Char} (hc : isPySpace c = true) :
    pyStrip (l ++ [c]) = pyStrip l := by
  unfold pyStrip
  rw [List.dropWhile_append]
  split
  · rename_i he
    rw [List.isEmpty_iff.mp he]
    simp [List.dropWhile_cons, hc]
  · exact dropTrail_append_ws hc

theorem dropWhile_twice (p : Char → Bool) (l : List Char) :
    (l.dropWhile p).dropWhile p = l.dropWhile p := by
  induction l with
  | nil => rfl
  | cons c rest ih =>
    by_cases h : p c
    · simp [List.dropWhile_cons, h, ih]
    · simp [List.dropWhile_cons, h]

theorem dropWhile_eq_self_of_prefix {p : Char → Bool} {x y : List Char}
    (hpre : x <+: y) (hy : y.dropWhile p = y) : x.dropWhile p = x := by
  cases x with
  | nil => rfl
  | cons a xs =>
    obtain ⟨t, rfl⟩ := hpre
    by_cases h : p a
    · rw [List.cons_append, List.dropWhile_cons, if_pos h] at hy
      have h1 := congrArg List.length hy
      have h2 : ((xs ++ t).dropWhile p).length ≤ (xs ++ t).length :=
        (List.dropWhile_suffix p).length_le
      rw [h1] at h2
      simp at h2
    · simp [List.dropWhile_cons, h]

theorem pyStrip_idem (l : List Char) : pyStrip (pyStrip l) = pyStrip l := by
  unfold pyStrip
  have h1 : (dropTrail (l.dropWhile isPySpace)).dropWhile isPySpace =
      dropTrail (l.dropWhile isPySpace) :=
    dropWhile_eq_self_of_prefix (dropTrail_isPrefix _) (dropWhile_twice _ l)
  rw [h1]
  unfold dropTrail
  rw [List.reverse_reverse, dropWhile_twice]

theorem pyStrip_sandwich {a b : Char} (xs : List Char)
    (ha : isPySpace a = false) (hb : isPySpace b = false) :
    pyStrip (a :: (xs ++ [b])) = a :: (xs ++ [b]) := by
  unfold pyStrip dropTrail
  rw [List.dropWhile_cons, if_neg (by simp [ha])]
  rw [show (a :: (xs ++ [b])).reverse = b :: (xs.reverse ++ [a]) by simp]
  rw [List.dropWhile_cons, if_neg (by simp [hb])]
  rw [show (b :: (xs.reverse ++ [a])).reverse = a :: (xs ++ [b]) by simp]

theorem isPrefixOf_false_of_head {a c : Char} {as t : List Char} (hne : a ≠ c) :
    (a :: as).isPrefixOf (c :: t) = false := by
  cases hp : (a :: as).isPrefixOf (c :: t) with
  | false => rfl
  | true =>
    rcases List.cons_prefix_cons.mp (List.isPrefixOf_iff_prefix.mp hp) with ⟨h1, -⟩
    exact absurd h1 hne

theorem dropLastN_append3 (Y : List Char) (a b c : Char) :
    dropLastN (Y ++ [a, b, c]) 3 = Y := by
  simp [dropLastN, List.reverse_append]

theorem sanitize_wrapJson (p : String) : sanitizeText (wrapJson p).data = pyStrip p.data := by
  have hdata : (wrapJson p).data = "```json\n".data ++ p.data ++ "\n```".data := by
    simp [wrapJson]
  have hshape : "```json\n".data ++ p.data ++ "\n```".data =
      '`' :: (("``json\n".data ++ p.data ++ "\n``".data) ++ ['`']) := by
    simp [show ("```json\n".data : List Char) = '`' :: "``json\n".data from rfl,
      show ("\n```".data : List Char) = "\n``".data ++ ['`'] from rfl, List.append_assoc]
  have h1 : pyStrip ((wrapJson p).data) = (wrapJson p).data := by
    rw [hdata, hshape]
    exact pyStrip_sandwich _ (by decide) (by decide)
  have h2 : "```json".data.isPrefixOf ((wrapJson p).data) = true := by
    rw [hdata]
    refine List.isPrefixOf_iff_prefix.mpr ⟨['\n'] ++ p.data ++ "\n```".data, ?_⟩
    simp [show ("```json\n".data : List Char) = "```json".data ++ ['\n'] from rfl,
      List.append_assoc]
  have h3 : ((wrapJson p).data).drop 7 = '\n' :: (p.data ++ "\n```".data) := by
    rw [hdata,
      show ("```json\n".data ++ p.data ++ "\n```".data : List Char) =
        "```json".data ++ ('\n' :: (p.data ++ "\n```".data)) by
      simp [show ("```json\n".data : List Char) = "```json".data ++ ['\n'] from rfl,
        List.append_assoc]]
    exact List.drop_left' (by rfl)
  have h4 : "```".data.isPrefixOf ('\n' :: (p.data ++ "\n```".data)) = false :=
    isPrefixOf_false_of_head (by decide)
  have h5 : "```".data.isSuffixOf ('\n' :: (p.data ++ "\n```".data)) = true := by
    refine List.isSuffixOf_iff_suffix.mpr ⟨'\n' :: (p.data ++ ['\n']), ?_⟩
    simp [show ("\n```".data : List Char) = ['\n'] ++ "```".data from rfl, List.append_assoc]
  have h6 : dropLastN ('\n' :: (p.data ++ "\n```".data)) 3 = '\n' :: (p.data ++ ['\n']) := by
    rw [show ('\n' :: (p.data ++ "\n```".data) : List Char) =
        ('\n' :: (p.data ++ ['\n'])) ++ ['`', '`', '`'] by
      simp [show ("\n```".data : List Char) = ['\n'] ++ ['`', '`', '`'] from rfl,
        List.append_assoc]]
    exact dropLastN_append3 _ _ _ _
  simp only [sanitizeText]
  rw [h1, if_pos h2, h3,
    if_neg (show ¬("```".data.isPrefixOf ('\n' :: (p.data ++ "\n```".data)) = true) by
      simp [h4]),
    if_pos h5, h6, pyStrip_cons_ws (by decide), pyStrip_append_ws (by decide)]

theorem sanitize_wrapBare (p : String) : sanitizeText (wrapBare p).data = pyStrip p.data := by
  have hdata : (wrapBare p).data = "```\n".data ++ p.data ++ "\n```".data := by
    simp [wrapBare]
  have hshape : "```\n".data ++ p.data ++ "\n```".data =
      '`' :: (("``\n".data ++ p.data ++ "\n``".data) ++ ['`']) := by
    simp [show ("```\n".data : List Char) = '`' :: "``\n".data from rfl,
      show ("\n```".data : List Char) = "\n``".data ++ ['`'] from rfl, List.append_assoc]
  have h1 : pyStrip ((wrapBare p).data) = (wrapBare p).data := by
    rw [hdata, hshape]
    exact pyStrip_sandwich _ (by decide) (by decide)
  have h2 : "```json".data.isPrefixOf ((wrapBare p).data) = false := by
    cases hh : "```json".data.isPrefixOf ((wrapBare p).data) with
    | false => rfl
    | true =>
      have hp := List.isPrefixOf_iff_prefix.mp hh
      rw [hdata,
        show ("```\n".data ++ p.data ++ "\n```".data : List Char) =
          '`' :: '`' :: '`' :: '\n' :: (p.data ++ "\n```".data) by
        simp [show ("```\n".data : List Char) = '`' :: '`' :: '`' :: '\n' :: [] from rfl,
          List.append_assoc],
        show ("```json".data : List Char) = '`' :: '`' :: '`' :: 'j' :: "son".data from rfl]
        at hp
      rcases List.cons_prefix_cons.mp hp with ⟨-, hp⟩
      rcases List.cons_prefix_cons.mp hp with ⟨-, hp⟩
      rcases List.cons_prefix_cons.mp hp with ⟨-, hp⟩
      rcases List.cons_prefix_cons.mp hp with ⟨hj, -⟩
      exact absurd hj (by decide)
  have h3 : "```".data.isPrefixOf ((wrapBare p).data) = true := by
    rw [hdata]
    refine List.isPrefixOf_iff_prefix.mpr ⟨['\n'] ++ p.data ++ "\n```".data, ?_⟩
    simp [show ("```\n".data : List Char) = "```".data ++ ['\n'] from rfl, List.append_assoc]
  have h4 : ((wrapBare p).data).drop 3 = '\n' :: (p.data ++ "\n```".data) := by
    rw [hdata,
      show ("```\n".data ++ p.data ++ "\n```".data : List Char) =
        "```".data ++ ('\n' :: (p.data ++ "\n```".data)) by
      simp [show ("```\n".data : List Char) = "```".data ++ ['\n'] from rfl,
        List.append_assoc]]
    exact List.drop_left' (by rfl)
  have h5 : "```".data.isSuffixOf ('\n' :: (p.data ++ "\n```".data)) = true := by
    refine List.isSuffixOf_iff_suffix.mpr ⟨'\n' :: (p.data ++ ['\n']), ?_⟩
    simp [show ("\n```".data : List Char) = ['\n'] ++ "```".data from rfl, List.append_assoc]
  have h6 : dropLastN ('\n' :: (p.data ++ "\n```".data)) 3 = '\n' :: (p.data ++ ['\n']) := by
    rw [show ('\n' :: (p.data ++ "\n```".data) : List Char) =
        ('\n' :: (p.data ++ ['\n'])) ++ ['`', '`', '`'] by
      simp [show ("\n```".data : List Char) = ['\n'] ++ ['`', '`', '`'] from rfl,
        List.append_assoc]]
    exact dropLastN_append3 _ _ _ _
  simp only [sanitizeText]
  rw [h1,
    if_neg (show ¬("```json".data.isPrefixOf ((wrapBare p).data) = true) by simp [h2]),
    if_pos h3, h4, if_pos h5, h6,
    pyStrip_cons_ws (by decide), pyStrip_append_ws (by decide)]

theorem sanitize_plain {p : String}
    (hstart : "```".data.isPrefixOf (pyStrip p.data) = false)
    (hend : "```".data.isSuffixOf (pyStrip p.data) = false) :
    sanitizeText p.data = pyStrip p.data := by
  have h7 : "```json".data.isPrefixOf (pyStrip p.data) = false := by
    cases hh : "```json".data.isPrefixOf (pyStrip p.data) with
    | false => rfl
    | true =>
      have hp := List.isPrefixOf_iff_prefix.mp hh
      have h3 : ("```".data : List Char) <+: "```json".data := ⟨"json".data, rfl⟩
      have h4 := List.isPrefixOf_iff_prefix.mpr (h3.trans hp)
      rw [h4] at hstart
      cases hstart
  simp only [sanitizeText]
  rw [if_neg (show ¬("```json".data.isPrefixOf (pyStrip p.data) = true) by simp [h7]),
    if_neg (show ¬("```".data.isPrefixOf (pyStrip p.data) = true) by simp [hstart]),
    if_neg (show ¬("```".data.isSuffixOf (pyStrip p.data) = true) by simp [hend])]
  exact pyStrip_idem p.data

theorem core_sanitize_congr {p q : String} (topic : String)
    (h : sanitizeText p.data = sanitizeText q.data) :
    generate_content_with_claude topic p = generate_content_with_claude topic q := by
  simp only [generate_content_with_claude, repair_truncated_json, h]

/-- C7: wrapping a payload in a leading fence opener — bare or with the
`json` language tag, the tag the sanitizer recognises — and a trailing
fence closer yields the same core result as the unwrapped payload,
provided the stripped payload does not itself begin or end with a fence
marker. -/
theorem fence_wrap_same (topic p : String)
    (hstart : "```".data.isPrefixOf (pyStrip p.data) = false)
    (hend : "```".data.isSuffixOf (pyStrip p.data) = false) :
    generate_content_with_claude topic (wrapJson p) = generate_content_with_claude topic p ∧
    generate_content_with_claude topic (wrapBare p) = generate_content_with_claude topic p :=
  ⟨core_sanitize_congr topic ((sanitize_wrapJson p).trans (sanitize_plain hstart hend).symm),
   core_sanitize_congr topic ((sanitize_wrapBare p).trans (sanitize_plain hstart hend).symm)⟩

/-- Witness for C7 at a concrete valid payload. -/
theorem fence_wrap_same_w :
    generate_content_with_claude "T" (wrapJson c7Payload) =
      generate_content_with_claude "T" c7Payload ∧
    generate_content_with_claude "T" (wrapBare c7Payload) =
      generate_content_with_claude "T" c7Payload :=
  fence_wrap_same "T" c7Payload (by rfl) (by rfl)

theorem scanLoop_eq_filterMap :
    ∀ (cs : List Char) (brace : Int) (buf : Option (List Char)) (acc : List JValue),
    scanLoop cs brace buf acc = acc ++ (candLoop cs brace buf).filterMap tryAccept := by
  intro cs
  induction cs with
  | nil => intro brace buf acc; simp [scanLoop, candLoop]
  | cons c rest ih =>
    intro brace buf acc
    simp only [scanLoop, candLoop]
    split
    · exact ih 1 (some [c]) acc
    · split
      · exact ih _ _ acc
      · split
        · split
          · split
            · rename_i b hcond
              split
              · rename_i w hw
                rw [ih (brace - 1) none (acc ++ [w])]
                simp [List.filterMap_cons, hw]
              · rename_i hw
                rw [ih (brace - 1) none acc]
                simp [List.filterMap_cons, hw]
            · exact ih _ none acc
          · exact ih _ _ acc
        · exact ih _ _ acc

/-- C8: acceptance is a per-candidate filter over the scanned candidate
substrings: a candidate that fails to parse in isolation or lacks `title`
(`tryAccept` returns `none`) is silently dropped without aborting the
scan — every accepted candidate before it is kept and every accepting
candidate after it still contributes, in order. -/
theorem failed_candidate_skipped (region : List Char)
    (pre post : List (List Char)) (cand : List Char)
    (hc : candLoop region 0 none = pre ++ cand :: post)
    (hfail : tryAccept cand = none) :
    scanLoop region 0 none [] =
      pre.filterMap tryAccept ++ post.filterMap tryAccept := by
  rw [scanLoop_eq_filterMap, hc]
  simp [List.filterMap_append, List.filterMap_cons, hfail]

/-- Witness for C8: the middle candidate of `c8Input` lacks `title`; the
records before and after it survive. -/
theorem failed_candidate_skipped_w :
    scanLoop ((scanRegionOf (sanitizeText c8Input.data)).getD []) 0 none [] =
      [c8Cand1].filterMap tryAccept ++ [c8Cand3].filterMap tryAccept :=
  failed_candidate_skipped _ [c8Cand1] [c8Cand3] c8Cand2 (by rfl) (by rfl)

theorem scanLoop_step_mark {rest : List Char} {buf : Option (List Char)}
    {acc : List JValue} :
    scanLoop ('\x7b' :: rest) 0 buf acc = scanLoop rest 1 (some ['\x7b']) acc := by
  simp [scanLoop]

theorem scanLoop_step_open {rest : List Char} {d : Int} {buf : List Char}
    {acc : List JValue} (hd : (d == 0) = false) :
    scanLoop ('\x7b' :: rest) d (some buf) acc =
      scanLoop rest (d + 1) (some (buf ++ ['\x7b'])) acc := by
  simp [scanLoop, hd, pushBuf]

theorem scanLoop_step_close_mid {rest : List Char} {d : Int} {buf : List Char}
    {acc : List JValue} (hd : (d - 1 == 0) = false) :
    scanLoop ('\x7d' :: rest) d (some buf) acc =
      scanLoop rest (d - 1) (some (buf ++ ['\x7d'])) acc := by
  simp [scanLoop, hd, pushBuf]

theorem scanLoop_step_complete {rest : List Char} {d : Int} {buf : List Char}
    {acc : List JValue} (hd : (d - 1 == 0) = true) :
    scanLoop ('\x7d' :: rest) d (some buf) acc =
      (match tryAccept (buf ++ ['\x7d']) with
        | some w => scanLoop rest (d - 1) none (acc ++ [w])
        | none => scanLoop rest (d - 1) none acc) := by
  simp [scanLoop, hd]

theorem scanLoop_step_other {c : Char} {rest : List Char} {d : Int} {buf : List Char}
    {acc : List JValue} (hb : c ≠ '\x7b') (hc : c ≠ '\x7d') :
    scanLoop (c :: rest) d (some buf) acc = scanLoop rest d (some (buf ++ [c])) acc := by
  simp [scanLoop, hb, hc, pushBuf]

theorem scanLoop_step_none_other {c : Char} {rest : List Char} {d : Int}
    {acc : List JValue} (hb : c ≠ '\x7b') (hc : c ≠ '\x7d') :
    scanLoop (c :: rest) d none acc = scanLoop rest d none acc := by
  simp [scanLoop, hb, hc, pushBuf]

theorem scanLoop_stays :
    ∀ (body rest : List Char) (d : Int) (buf : List Char) (acc : List JValue),
    1 ≤ d → staysPos d body = true →
    scanLoop (body ++ rest) d (some buf) acc =
      scanLoop rest (endD d body) (some (buf ++ body)) acc := by
  intro body
  induction body with
  | nil => intro rest d buf acc _ _; simp [endD]
  | cons c t ih =>
    intro rest d buf acc hd hs
    simp only [staysPos, Bool.and_eq_true, decide_eq_true_eq] at hs
    obtain ⟨hd', hs'⟩ := hs
    rw [List.cons_append]
    by_cases hb : c = '\x7b'
    · subst hb
      rw [show stepD d '\x7b' = d + 1 from rfl] at hd' hs'
      rw [scanLoop_step_open (by simp; omega)]
      rw [ih rest (d + 1) (buf ++ ['\x7b']) acc (by omega) hs']
      simp [endD, stepD, List.append_assoc]
    · by_cases hc : c = '\x7d'
      · subst hc
        rw [show stepD d '\x7d' = d - 1 from rfl] at hd' hs'
        rw [scanLoop_step_close_mid (by simp; omega)]
        rw [ih rest (d - 1) (buf ++ ['\x7d']) acc (by omega) hs']
        simp [endD, stepD, List.append_assoc]
      · simp only [stepD, if_neg hb, if_neg hc] at hd' hs'
        rw [scanLoop_step_other hb hc]
        rw [ih rest d (buf ++ [c]) acc hd hs']
        simp [endD, stepD, hb, hc, List.append_assoc]

theorem scanLoop_record :
    ∀ (body rest : List Char) (d : Int) (buf : List Char) (acc : List JValue),
    1 ≤ d → closesAtEnd d body = true →
    scanLoop (body ++ rest) d (some buf) acc =
      scanLoop rest 0 none
        (match tryAccept (buf ++ body) with
          | some w => acc ++ [w]
          | none => acc) := by
  intro body
  induction body with
  | nil => intro rest d buf acc _ hc; simp [closesAtEnd] at hc
  | cons c t ih =>
    intro rest d buf acc hd hc
    simp only [closesAtEnd] at hc
    by_cases hz : (stepD d c == 0) = true
    · have hz' : stepD d c = 0 := by simpa using hz
      rw [if_pos hz] at hc
      have ht : t = [] := by simpa using hc
      subst ht
      by_cases hb : c = '\x7b'
      · subst hb
        rw [show stepD d '\x7b' = d + 1 from rfl] at hz'
        omega
      · by_cases hcc : c = '\x7d'
        · subst hcc
          rw [show stepD d '\x7d' = d - 1 from rfl] at hz'
          rw [List.cons_append, List.nil_append]
          rw [scanLoop_step_complete (by simp [hz'])]
          cases htr : tryAccept (buf ++ ['\x7d']) <;> simp [htr, hz']
        · simp only [stepD, if_neg hb, if_neg hcc] at hz'
          omega
    · rw [if_neg (by simpa using hz)] at hc
      have hz' : stepD d c ≠ 0 := by
        intro he
        rw [show (stepD d c == 0) = true by simpa using he] at hz
        exact hz rfl
      rw [List.cons_append]
      by_cases hb : c = '\x7b'
      · subst hb
        rw [show stepD d '\x7b' = d + 1 from rfl] at hc hz'
        rw [scanLoop_step_open (by simp; omega)]
        rw [ih rest (d + 1) (buf ++ ['\x7b']) acc (by omega) hc]
        simp [List.append_assoc]
      · by_cases hcc : c = '\x7d'
        · subst hcc
          rw [show stepD d '\x7d' = d - 1 from rfl] at hc hz'
          rw [scanLoop_step_close_mid (by simp [hz'])]
          rw [ih rest (d - 1) (buf ++ ['\x7d']) acc (by omega) hc]
          simp [List.append_assoc]
        · simp only [stepD, if_neg hb, if_neg hcc] at hc hz'
          rw [scanLoop_step_other hb hcc]
          rw [ih rest d (buf ++ [c]) acc hd hc]
          simp [List.append_assoc]

theorem scanLoop_frag (frag : List Char) (acc : List JValue) (hf : fragOk frag = true) :
    scanLoop frag 0 none acc = acc := by
  cases frag with
  | nil => simp [fragOk] at hf
  | cons c ftail =>
    simp only [fragOk, Bool.and_eq_true, decide_eq_true_eq] at hf
    obtain ⟨hc, hs⟩ := hf
    subst hc
    rw [scanLoop_step_mark]
    have h := scanLoop_stays ftail [] 1 ['\x7b'] acc (by omega) hs
    rw [List.append_nil] at h
    rw [h]
    simp [scanLoop]

theorem scanLoop_comma (rest : List Char) (acc : List JValue) :
    scanLoop (',' :: rest) 0 none acc = scanLoop rest 0 none acc :=
  scanLoop_step_none_other (by decide) (by decide)

theorem fillRepair_ok_of_title {kvs : List (String × JValue)}
    (ht : hasKey kvs "title" = true) : ∃ w, fillRepair (.obj kvs) = .ok w := by
  simp only [fillRepair]
  obtain ⟨e1, h1⟩ := ifAppend kvs (hasKey kvs "bullets" = true) [("bullets", .arr [])]
  rw [h1]
  by_cases h2 : hasKey (kvs ++ e1) "image_prompt" = true
  · rw [if_pos h2]
    exact ⟨_, rfl⟩
  · rw [if_neg h2]
    have ht2 : hasKey (kvs ++ e1) "title" = true := hasKey_append_left ht
    unfold hasKey at ht2
    cases hl : lookupKV (kvs ++ e1) "title" with
    | none => rw [hl] at ht2; cases ht2
    | some tv =>
      exact ⟨_, rfl⟩

theorem goodRecord_shape {r : String} (h : goodRecord r = true) :
    ∃ body, r.data = '\x7b' :: body ∧ closesAtEnd 1 body = true ∧
      ∃ w, tryAccept r.data = some w := by
  simp only [goodRecord, Bool.and_eq_true] at h
  obtain ⟨hwb, hjson⟩ := h
  have hacc : ∃ w, tryAccept r.data = some w := by
    split at hjson
    · rename_i kvs hj
      obtain ⟨w, hw⟩ := fillRepair_ok_of_title hjson
      exact ⟨w, by simp only [tryAccept, hj, pyIn, hjson, hw]⟩
    · cases hjson
  cases hd : r.data with
  | nil => rw [hd] at hwb; simp [wellBraced] at hwb
  | cons c body =>
    rw [hd] at hwb
    simp only [wellBraced, Bool.and_eq_true, decide_eq_true_eq] at hwb
    obtain ⟨hc, hclose⟩ := hwb
    subst hc
    exact ⟨body, rfl, hclose, hd ▸ hacc⟩

theorem scanLoop_join :
    ∀ (recs : List String) (frag : List Char) (acc : List JValue),
    (∀ r ∈ recs, goodRecord r = true) → fragOk frag = true →
    scanLoop (joinTrunc recs frag) 0 none acc =
      acc ++ recs.map (fun r => (tryAccept r.data).getD .null) := by
  intro recs
  induction recs with
  | nil => intro frag acc _ hf; simp [joinTrunc, scanLoop_frag frag acc hf]
  | cons r rs ih =>
    intro frag acc hg hf
    obtain ⟨body, hcb, hclose, w, hacc⟩ := goodRecord_shape (hg r (List.mem_cons_self ..))
    simp only [joinTrunc]
    rw [hcb, List.cons_append, scanLoop_step_mark]
    have hrec := scanLoop_record body (',' :: joinTrunc rs frag) 1 ['\x7b'] acc (by omega) hclose
    rw [hrec]
    rw [show (['\x7b'] ++ body : List Char) = r.data by rw [hcb]; rfl]
    rw [hacc]
    rw [scanLoop_comma]
    rw [ih frag (acc ++ [w]) (fun x hx => hg x (List.mem_cons_of_mem _ hx)) hf]
    simp [hacc, List.append_assoc]

/-- C2: a sanitized document whose `slides` collection holds complete,
titled, well-braced records followed by a record whose closing delimiter
is missing makes the core return exactly those records, in order, each
salvaged by the scan and filled (`salvaged`); no error escapes. -/
theorem truncation_salvage (topic : String) (recs : List String) (frag : List Char)
    (hne : recs ≠ [])
    (hgood : ∀ r ∈ recs, goodRecord r = true)
    (hfrag : fragOk frag = true)
    (hsan : sanitizeText (mkTruncDoc recs frag).data = (mkTruncDoc recs frag).data)
    (hfail : jsonLoads (mkTruncDoc recs frag).data = none) :
    generate_content_with_claude topic (mkTruncDoc recs frag) =
      some (.arr (recs.map (salvaged topic))) := by
  have hdoc : (mkTruncDoc recs frag).data = "\x7b\"slides\": [".data ++ joinTrunc recs frag := rfl
  have hreg : scanRegionOf ((mkTruncDoc recs frag).data) = some (joinTrunc recs frag) := by
    rw [hdoc]
    rw [show ("\x7b\"slides\": [".data : List Char) =
      '\x7b' :: '"' :: 's' :: 'l' :: 'i' :: 'd' :: 'e' :: 's' :: '"' :: ':' :: ' ' :: '[' :: []
      from rfl]
    simp [scanRegionOf, dropToSub?, dropAfterChar?, List.isPrefixOf,
      show ("\"slides\"".data : List Char) =
        '"' :: 's' :: 'l' :: 'i' :: 'd' :: 'e' :: 's' :: '"' :: [] from rfl]
  have hscan := scanLoop_join recs frag [] hgood hfrag
  rw [List.nil_append] at hscan
  have hslides_ne : (recs.map (fun r => (tryAccept r.data).getD JValue.null)) ≠ [] := by
    cases recs with
    | nil => cases hne rfl
    | cons a l => simp
  have hempty : (recs.map (fun r => (tryAccept r.data).getD JValue.null)).isEmpty = false := by
    cases hm : recs.map (fun r => (tryAccept r.data).getD JValue.null) with
    | nil => exact absurd hm hslides_ne
    | cons a l => rfl
  have hrep : repair_truncated_json (mkTruncDoc recs frag) =
      some (.obj [("slides",
        .arr (recs.map (fun r => (tryAccept r.data).getD JValue.null)))]) := by
    simp [repair_truncated_json, hsan, hfail, hreg, hscan, hempty]
  have hobjs : ∀ x ∈ recs.map (fun r => (tryAccept r.data).getD JValue.null),
      ∃ rkvs, x = JValue.obj rkvs := by
    intro x hx
    rw [List.mem_map] at hx
    obtain ⟨r, hr, rfl⟩ := hx
    obtain ⟨body, hcb, -, w, hacc⟩ := goodRecord_shape (hgood r hr)
    obtain ⟨kvs, hkvs, -⟩ := tryAccept_shape (hcb ▸ hacc)
    exact ⟨kvs, by simp [hacc, hkvs]⟩
  have hcore := caller_success hrep rfl hslides_ne (mapExc_fillCaller_objs topic hobjs)
  rw [hcore]
  simp [List.map_map, salvaged, Function.comp]

/-- Witness for C2: two complete records, then a fragment cut inside its
bullet list. -/
theorem truncation_salvage_w :
    generate_content_with_claude "T" (mkTruncDoc [c2RecA, c2RecB] c2Frag) =
      some (.arr ([c2RecA, c2RecB].map (salvaged "T"))) := by
  refine truncation_salvage "T" [c2RecA, c2RecB] c2Frag (by simp) ?_ (by rfl) (by rfl) (by rfl)
  intro r hr
  rcases List.mem_cons.mp hr with rfl | hr
  · rfl
  · rcases List.mem_singleton.mp hr with rfl
    rfl

end SlideCore
